import Mathlib

/-!
# Verification of `src/installer.ts` (setup-dotnet)

A shallow embedding of the version-specifier resolver, install-directory
selector, installer argument builder and post-install version scan of
`src/installer.ts`, together with proofs of the specification claims.

Strings are modelled by Lean `String` (a list of characters); the JavaScript
`String.prototype.split` and the relevant fragment of the `semver` library
(`valid`, `validRange`, `maxSatisfying` with `includePrerelease`) are
modelled by executable functions below.  The modelled range grammar covers
plain versions and X-ranges (`A`, `A.B`, `A.B.x`, `x`, `*`, with an optional
`v` prefix and prerelease/build parts on full triples), unions separated by
`||` and space-separated intersections; comparator operators (`>=` etc.) and
hyphen ranges of the full grammar are not modelled — no claim depends on
them.  Numeric identifiers follow the semver grammar `0|[1-9][0-9]*`
(no leading zeroes).
-/

namespace SetupDotnet

/-! ## Character-list helpers (JS `split`, first-occurrence break) -/

/-- JS `s.split(sep)` for a one-character separator, on the character list. -/
def splitChar (sep : Char) : List Char → List (List Char)
  | [] => [[]]
  | c :: cs =>
    if c = sep then [] :: splitChar sep cs
    else
      let rest := splitChar sep cs
      (c :: rest.headD []) :: rest.tail

/-- Break a character list at the first occurrence of `sep`:
returns the part before it and, when `sep` occurs, the part after it. -/
def breakAt (sep : Char) : List Char → List Char × Option (List Char)
  | [] => ([], none)
  | c :: cs =>
    if c = sep then ([], some cs)
    else
      let p := breakAt sep cs
      (c :: p.1, p.2)

/-- JS `s.split("||")` on the character list (used by the range grammar). -/
def splitBars : List Char → List (List Char)
  | [] => [[]]
  | [c] => [[c]]
  | c :: c' :: cs =>
    if c = '|' ∧ c' = '|' then [] :: splitBars cs
    else
      let rest := splitBars (c' :: cs)
      (c :: rest.headD []) :: rest.tail

theorem splitChar_ne_nil (sep : Char) : ∀ cs : List Char, splitChar sep cs ≠ []
  | [] => by simp [splitChar]
  | c :: cs => by
    by_cases h : c = sep <;> simp [splitChar, h]

theorem splitChar_of_not_mem {sep : Char} :
    ∀ (cs : List Char), sep ∉ cs → splitChar sep cs = [cs]
  | [], _ => rfl
  | c :: cs, h => by
    have hc : ¬ c = sep := fun e => h (e ▸ List.mem_cons_self c cs)
    have ih := splitChar_of_not_mem cs (fun m => h (List.mem_cons_of_mem c m))
    simp [splitChar, hc, ih]

theorem splitChar_append {sep : Char} :
    ∀ (xs : List Char), sep ∉ xs → ∀ ys,
      splitChar sep (xs ++ sep :: ys) = xs :: splitChar sep ys
  | [], _, ys => by simp [splitChar]
  | x :: xs, h, ys => by
    have hx : ¬ x = sep := fun e => h (e ▸ List.mem_cons_self x xs)
    have ih := splitChar_append xs (fun m => h (List.mem_cons_of_mem x m)) ys
    simp [splitChar, hx, ih]

theorem breakAt_of_not_mem {sep : Char} :
    ∀ (cs : List Char), sep ∉ cs → breakAt sep cs = (cs, none)
  | [], _ => rfl
  | c :: cs, h => by
    have hc : ¬ c = sep := fun e => h (e ▸ List.mem_cons_self c cs)
    have ih := breakAt_of_not_mem cs (fun m => h (List.mem_cons_of_mem c m))
    simp [breakAt, hc, ih]

theorem splitBars_of_not_mem : ∀ (cs : List Char), '|' ∉ cs → splitBars cs = [cs]
  | [], _ => rfl
  | [c], _ => rfl
  | c :: c' :: cs, h => by
    have hc : ¬ (c = '|' ∧ c' = '|') := by
      rintro ⟨e, _⟩
      exact h (e ▸ List.mem_cons_self c (c' :: cs))
    have ih := splitBars_of_not_mem (c' :: cs)
      (fun m => h (List.mem_cons_of_mem c m))
    simp [splitBars, hc, ih]

/-- `(s ++ t).data = s.data ++ t.data`. -/
theorem data_append (s t : String) : (s ++ t).data = s.data ++ t.data := by
  cases s; cases t; rfl

/-! ## Identifiers of the semver grammar -/

/-- A semver numeric identifier: `0|[1-9][0-9]*` (digits, no leading zero). -/
def numOk (cs : List Char) : Bool :=
  !cs.isEmpty && cs.all Char.isDigit && (cs = ['0'] || cs.headD ' ' ≠ '0')

/-- The wildcard identifiers of an X-range. -/
def isXid (cs : List Char) : Bool :=
  cs = ['x'] || cs = ['X'] || cs = ['*']

/-- An identifier of an X-range: numeric or wildcard. -/
def xrangeIdent (cs : List Char) : Bool :=
  numOk cs || isXid cs

/-- A prerelease identifier: nonempty, alphanumerics and hyphens, and when it
is all digits it must not have a leading zero. -/
def preIdOk (cs : List Char) : Bool :=
  !cs.isEmpty && cs.all (fun c => c.isAlphanum || c = '-') &&
    (!cs.all Char.isDigit || numOk cs)

/-- A dotted prerelease part, e.g. `rc.1`. -/
def preOk (cs : List Char) : Bool :=
  (splitChar '.' cs).all preIdOk

/-- A dotted build part, e.g. `build.5` (leading zeroes allowed). -/
def buildOk (cs : List Char) : Bool :=
  (splitChar '.' cs).all (fun l => !l.isEmpty && l.all (fun c => c.isAlphanum || c = '-'))

/-- Decimal value of a digit list (the numeric value of a numeric tag,
as produced by the JS unary `+` on such a tag). -/
def natOf (cs : List Char) : Nat :=
  cs.foldl (fun n c => n * 10 + (c.toNat - 48)) 0

/-- `isNumericTag` of `installer.ts` (line 59): the regex `/^\d+$/`. -/
def isNumericTag (s : String) : Bool :=
  !s.data.isEmpty && s.data.all Char.isDigit

/-- Decimal value of a numeric tag. -/
def natOfStr (s : String) : Nat := natOf s.data

/-- A canonical numeric tag: digits without a leading zero — the numeric
identifiers accepted by the semver range grammar. -/
def canonicalNumericTag (s : String) : Bool := numOk s.data

/-! ## The semver data model -/

/-- A prerelease identifier, numeric or alphanumeric (compared as in semver:
numeric identifiers by value and below every alphanumeric identifier,
alphanumeric identifiers by code-unit order). -/
inductive PreId where
  | num (n : Nat)
  | str (cs : List Char)
deriving Repr, DecidableEq

/-- A parsed semantic version (the build part is dropped, as it never
participates in comparison). -/
structure SemVer where
  major : Nat
  minor : Nat
  patch : Nat
  pre : List PreId
deriving Repr, DecidableEq

/-- Classify one dotted prerelease identifier. -/
def parsePreId (cs : List Char) : PreId :=
  if !cs.isEmpty && cs.all Char.isDigit then .num (natOf cs) else .str cs

/-- Split `core(-pre)?(+build)?` into its three parts
(the `+` is searched first, then the first `-` of the remainder). -/
def splitVersionCore (cs : List Char) :
    List Char × Option (List Char) × Option (List Char) :=
  let p := breakAt '+' cs
  let q := breakAt '-' p.1
  (q.1, q.2, p.2)

/-- `semver.valid` / `semver.parse` on the character list: a full version
`[v]A.B.C(-pre)?(+build)?` with numeric `A`, `B`, `C`. -/
def parseSemVerL (cs0 : List Char) : Option SemVer :=
  let cs := if ['v'].isPrefixOf cs0 then cs0.drop 1 else cs0
  let t := splitVersionCore cs
  match splitChar '.' t.1 with
  | [a, b, c] =>
    if numOk a && numOk b && numOk c &&
        (match t.2.1 with | none => true | some p => preOk p) &&
        (match t.2.2 with | none => true | some bl => buildOk bl) then
      some ⟨natOf a, natOf b, natOf c,
        match t.2.1 with
        | none => []
        | some p => (splitChar '.' p).map parsePreId⟩
    else none
  | _ => none

/-- `semver.valid` is truthy exactly when this parses. -/
def parseSemVer (s : String) : Option SemVer := parseSemVerL s.data

/-! ## The semver order (strict, as a Boolean comparator) -/

/-- Code-unit lexicographic order on character lists (JS string `<`). -/
def charListLtB : List Char → List Char → Bool
  | [], [] => false
  | [], _ :: _ => true
  | _ :: _, [] => false
  | a :: as, b :: bs => if a = b then charListLtB as bs else decide (a.toNat < b.toNat)

/-- Order on prerelease identifiers: numeric below alphanumeric, numeric by
value, alphanumeric by code-unit order. -/
def idLtB : PreId → PreId → Bool
  | .num a, .num b => decide (a < b)
  | .num _, .str _ => true
  | .str _, .num _ => false
  | .str a, .str b => charListLtB a b

/-- Lexicographic order on (nonempty tails of) prerelease identifier lists;
a strict prefix is smaller. -/
def preLtR : List PreId → List PreId → Bool
  | [], [] => false
  | [], _ :: _ => true
  | _ :: _, [] => false
  | x :: xs, y :: ys => if x = y then preLtR xs ys else idLtB x y

/-- Order on prerelease parts: a version with a prerelease part is below the
same version without one; two prerelease parts compare lexicographically. -/
def preLt : List PreId → List PreId → Bool
  | [], [] => false
  | [], _ :: _ => false
  | _ :: _, [] => true
  | x :: xs, y :: ys => if x = y then preLtR xs ys else idLtB x y

/-- `semver.lt`: major, minor, patch, then the prerelease part. -/
def semverLtB (a b : SemVer) : Bool :=
  if a.major ≠ b.major then decide (a.major < b.major)
  else if a.minor ≠ b.minor then decide (a.minor < b.minor)
  else if a.patch ≠ b.patch then decide (a.patch < b.patch)
  else preLt a.pre b.pre

/-! ## The comparator is a strict linear order -/

theorem char_eq_of_toNat_eq {a b : Char} (h : a.toNat = b.toNat) : a = b :=
  Char.ext (UInt32.ext h)

theorem charListLtB_irrefl : ∀ cs : List Char, charListLtB cs cs = false
  | [] => rfl
  | c :: cs => by simp [charListLtB, charListLtB_irrefl cs]

theorem charListLtB_trans :
    ∀ {as bs cs : List Char}, charListLtB as bs = true → charListLtB bs cs = true →
      charListLtB as cs = true
  | [], b :: bs, c :: cs, _, _ => rfl
  | [], [], _, h₁, _ => by simp [charListLtB] at h₁
  | [], _ :: _, [], _, h₂ => by simp [charListLtB] at h₂
  | _ :: _, [], _, h₁, _ => by simp [charListLtB] at h₁
  | _ :: _, _ :: _, [], _, h₂ => by simp [charListLtB] at h₂
  | a :: as, b :: bs, c :: cs, h₁, h₂ => by
    simp only [charListLtB] at h₁ h₂ ⊢
    by_cases hab : a = b
    · subst hab
      rw [if_pos rfl] at h₁
      by_cases hac : a = c
      · subst hac
        rw [if_pos rfl] at h₂ ⊢
        exact charListLtB_trans h₁ h₂
      · rw [if_neg hac] at h₂ ⊢
        exact h₂
    · rw [if_neg hab] at h₁
      have hlt₁ : a.toNat < b.toNat := of_decide_eq_true h₁
      by_cases hbc : b = c
      · subst hbc
        rw [if_neg hab]
        exact h₁
      · rw [if_neg hbc] at h₂
        have hlt₂ : b.toNat < c.toNat := of_decide_eq_true h₂
        have hac : a ≠ c := by
          intro e; subst e; omega
        rw [if_neg hac]
        exact decide_eq_true (by omega)

theorem charListLtB_connex :
    ∀ {as bs : List Char}, charListLtB as bs = false → charListLtB bs as = false →
      as = bs
  | [], [], _, _ => rfl
  | [], _ :: _, h₁, _ => by simp [charListLtB] at h₁
  | _ :: _, [], _, h₂ => by simp [charListLtB] at h₂
  | a :: as, b :: bs, h₁, h₂ => by
    simp only [charListLtB] at h₁ h₂
    by_cases hab : a = b
    · subst hab
      rw [if_pos rfl] at h₁ h₂
      rw [charListLtB_connex h₁ h₂]
    · have hba : ¬ b = a := fun e => hab e.symm
      rw [if_neg hab] at h₁
      rw [if_neg hba] at h₂
      have n₁ : ¬ a.toNat < b.toNat := of_decide_eq_false h₁
      have n₂ : ¬ b.toNat < a.toNat := of_decide_eq_false h₂
      exact absurd (char_eq_of_toNat_eq (by omega)) hab

theorem idLtB_irrefl : ∀ x : PreId, idLtB x x = false
  | .num n => by simp [idLtB]
  | .str cs => by simp [idLtB, charListLtB_irrefl]

theorem idLtB_trans :
    ∀ {x y z : PreId}, idLtB x y = true → idLtB y z = true → idLtB x z = true
  | .num a, .num b, .num c, h₁, h₂ => by
    simp [idLtB] at h₁ h₂ ⊢; omega
  | .num _, .num _, .str _, _, _ => rfl
  | .num _, .str _, .num _, _, h₂ => by simp [idLtB] at h₂
  | .num _, .str _, .str _, _, _ => rfl
  | .str _, .num _, _, h₁, _ => by simp [idLtB] at h₁
  | .str _, .str _, .num _, _, h₂ => by simp [idLtB] at h₂
  | .str a, .str b, .str c, h₁, h₂ => by
    simp [idLtB] at h₁ h₂ ⊢
    exact charListLtB_trans h₁ h₂

theorem idLtB_connex :
    ∀ {x y : PreId}, idLtB x y = false → idLtB y x = false → x = y
  | .num a, .num b, h₁, h₂ => by
    simp [idLtB] at h₁ h₂
    have e : a = b := by omega
    rw [e]
  | .num _, .str _, h₁, _ => by simp [idLtB] at h₁
  | .str _, .num _, _, h₂ => by simp [idLtB] at h₂
  | .str a, .str b, h₁, h₂ => by
    simp [idLtB] at h₁ h₂ ⊢
    exact charListLtB_connex h₁ h₂

theorem idLtB_asymm {x y : PreId} (h₁ : idLtB x y = true) : idLtB y x = false := by
  by_contra h
  have h₂ : idLtB y x = true := by
    cases hyx : idLtB y x
    · exact absurd hyx h
    · rfl
  have := idLtB_trans h₁ h₂
  rw [idLtB_irrefl] at this
  exact Bool.noConfusion this

theorem preLtR_irrefl : ∀ xs : List PreId, preLtR xs xs = false
  | [] => rfl
  | x :: xs => by simp [preLtR, preLtR_irrefl xs]

theorem preLtR_trans :
    ∀ {xs ys zs : List PreId}, preLtR xs ys = true → preLtR ys zs = true →
      preLtR xs zs = true
  | [], y :: ys, z :: zs, _, _ => rfl
  | [], [], _, h₁, _ => by simp [preLtR] at h₁
  | [], y :: ys, [], _, h₂ => by simp [preLtR] at h₂
  | _ :: _, [], _, h₁, _ => by simp [preLtR] at h₁
  | _ :: _, _ :: _, [], _, h₂ => by simp [preLtR] at h₂
  | x :: xs, y :: ys, z :: zs, h₁, h₂ => by
    simp only [preLtR] at h₁ h₂ ⊢
    by_cases hxy : x = y
    · subst hxy
      rw [if_pos rfl] at h₁
      by_cases hxz : x = z
      · subst hxz
        rw [if_pos rfl] at h₂ ⊢
        exact preLtR_trans h₁ h₂
      · rw [if_neg hxz] at h₂ ⊢
        exact h₂
    · rw [if_neg hxy] at h₁
      by_cases hyz : y = z
      · subst hyz
        rw [if_neg hxy]
        exact h₁
      · rw [if_neg hyz] at h₂
        have hxz : x ≠ z := by
          intro e; subst e
          rw [idLtB_asymm h₁] at h₂
          exact Bool.noConfusion h₂
        rw [if_neg hxz]
        exact idLtB_trans h₁ h₂

theorem preLtR_connex :
    ∀ {xs ys : List PreId}, preLtR xs ys = false → preLtR ys xs = false → xs = ys
  | [], [], _, _ => rfl
  | [], _ :: _, h₁, _ => by simp [preLtR] at h₁
  | _ :: _, [], _, h₂ => by simp [preLtR] at h₂
  | x :: xs, y :: ys, h₁, h₂ => by
    simp only [preLtR] at h₁ h₂
    by_cases hxy : x = y
    · subst hxy
      rw [if_pos rfl] at h₁ h₂
      rw [preLtR_connex h₁ h₂]
    · have hyx : ¬ y = x := fun e => hxy e.symm
      rw [if_neg hxy] at h₁
      rw [if_neg hyx] at h₂
      exact absurd (idLtB_connex h₁ h₂) hxy

theorem preLt_irrefl : ∀ xs : List PreId, preLt xs xs = false
  | [] => rfl
  | x :: xs => by simp [preLt, preLtR_irrefl xs]

theorem preLt_trans :
    ∀ {xs ys zs : List PreId}, preLt xs ys = true → preLt ys zs = true →
      preLt xs zs = true
  | [], [], _, h₁, _ => by simp [preLt] at h₁
  | [], _ :: _, _, h₁, _ => by simp [preLt] at h₁
  | _ :: _, [], [], _, h₂ => by simp [preLt] at h₂
  | _ :: _, [], _ :: _, _, h₂ => by simp [preLt] at h₂
  | _ :: _, _ :: _, [], _, _ => rfl
  | x :: xs, y :: ys, z :: zs, h₁, h₂ => by
    simp only [preLt] at h₁ h₂ ⊢
    by_cases hxy : x = y
    · subst hxy
      rw [if_pos rfl] at h₁
      by_cases hxz : x = z
      · subst hxz
        rw [if_pos rfl] at h₂ ⊢
        exact preLtR_trans h₁ h₂
      · rw [if_neg hxz] at h₂ ⊢
        exact h₂
    · rw [if_neg hxy] at h₁
      by_cases hyz : y = z
      · subst hyz
        rw [if_neg hxy]
        exact h₁
      · rw [if_neg hyz] at h₂
        have hxz : x ≠ z := by
          intro e; subst e
          rw [idLtB_asymm h₁] at h₂
          exact Bool.noConfusion h₂
        rw [if_neg hxz]
        exact idLtB_trans h₁ h₂

theorem preLt_connex :
    ∀ {xs ys : List PreId}, preLt xs ys = false → preLt ys xs = false → xs = ys
  | [], [], _, _ => rfl
  | [], _ :: _, _, h₂ => by simp [preLt] at h₂
  | _ :: _, [], h₁, _ => by simp [preLt] at h₁
  | x :: xs, y :: ys, h₁, h₂ => by
    simp only [preLt] at h₁ h₂
    by_cases hxy : x = y
    · subst hxy
      rw [if_pos rfl] at h₁ h₂
      rw [preLtR_connex h₁ h₂]
    · have hyx : ¬ y = x := fun e => hxy e.symm
      rw [if_neg hxy] at h₁
      rw [if_neg hyx] at h₂
      exact absurd (idLtB_connex h₁ h₂) hxy

theorem semverLtB_irrefl (a : SemVer) : semverLtB a a = false := by
  simp [semverLtB, preLt_irrefl]

theorem semverLtB_trans {a b c : SemVer}
    (h₁ : semverLtB a b = true) (h₂ : semverLtB b c = true) :
    semverLtB a c = true := by
  unfold semverLtB at h₁ h₂ ⊢
  by_cases e₁ : a.major = b.major
  · rw [if_neg (fun h => h e₁)] at h₁
    by_cases e₂ : b.major = c.major
    · rw [if_neg (fun h => h e₂)] at h₂
      rw [if_neg (fun h => h (e₁.trans e₂))]
      by_cases f₁ : a.minor = b.minor
      · rw [if_neg (fun h => h f₁)] at h₁
        by_cases f₂ : b.minor = c.minor
        · rw [if_neg (fun h => h f₂)] at h₂
          rw [if_neg (fun h => h (f₁.trans f₂))]
          by_cases g₁ : a.patch = b.patch
          · rw [if_neg (fun h => h g₁)] at h₁
            by_cases g₂ : b.patch = c.patch
            · rw [if_neg (fun h => h g₂)] at h₂
              rw [if_neg (fun h => h (g₁.trans g₂))]
              exact preLt_trans h₁ h₂
            · rw [if_pos g₂] at h₂
              have hb := of_decide_eq_true h₂
              have hne : a.patch ≠ c.patch := by omega
              rw [if_pos hne]
              exact decide_eq_true (by omega)
          · rw [if_pos g₁] at h₁
            have ha := of_decide_eq_true h₁
            by_cases g₂ : b.patch = c.patch
            · have hne : a.patch ≠ c.patch := by omega
              rw [if_pos hne]
              exact decide_eq_true (by omega)
            · rw [if_pos g₂] at h₂
              have hb := of_decide_eq_true h₂
              have hne : a.patch ≠ c.patch := by omega
              rw [if_pos hne]
              exact decide_eq_true (by omega)
        · rw [if_pos f₂] at h₂
          have hb := of_decide_eq_true h₂
          have hne : a.minor ≠ c.minor := by omega
          rw [if_pos hne]
          exact decide_eq_true (by omega)
      · rw [if_pos f₁] at h₁
        have ha := of_decide_eq_true h₁
        by_cases f₂ : b.minor = c.minor
        · have hne : a.minor ≠ c.minor := by omega
          rw [if_pos hne]
          exact decide_eq_true (by omega)
        · rw [if_pos f₂] at h₂
          have hb := of_decide_eq_true h₂
          have hne : a.minor ≠ c.minor := by omega
          rw [if_pos hne]
          exact decide_eq_true (by omega)
    · rw [if_pos e₂] at h₂
      have hb := of_decide_eq_true h₂
      have hne : a.major ≠ c.major := by omega
      rw [if_pos hne]
      exact decide_eq_true (by omega)
  · rw [if_pos e₁] at h₁
    have ha := of_decide_eq_true h₁
    by_cases e₂ : b.major = c.major
    · have hne : a.major ≠ c.major := by omega
      rw [if_pos hne]
      exact decide_eq_true (by omega)
    · rw [if_pos e₂] at h₂
      have hb := of_decide_eq_true h₂
      have hne : a.major ≠ c.major := by omega
      rw [if_pos hne]
      exact decide_eq_true (by omega)

theorem semverLtB_connex {a b : SemVer}
    (h₁ : semverLtB a b = false) (h₂ : semverLtB b a = false) : a = b := by
  unfold semverLtB at h₁ h₂
  by_cases e : a.major = b.major
  · rw [if_neg (fun h => h e)] at h₁
    rw [if_neg (fun h => h e.symm)] at h₂
    by_cases f : a.minor = b.minor
    · rw [if_neg (fun h => h f)] at h₁
      rw [if_neg (fun h => h f.symm)] at h₂
      by_cases g : a.patch = b.patch
      · rw [if_neg (fun h => h g)] at h₁
        rw [if_neg (fun h => h g.symm)] at h₂
        have hp := preLt_connex h₁ h₂
        cases a; cases b
        simp_all
      · rw [if_pos g] at h₁
        rw [if_pos (fun h => g h.symm)] at h₂
        have n₁ := of_decide_eq_false h₁
        have n₂ := of_decide_eq_false h₂
        omega
    · rw [if_pos f] at h₁
      rw [if_pos (fun h => f h.symm)] at h₂
      have n₁ := of_decide_eq_false h₁
      have n₂ := of_decide_eq_false h₂
      omega
  · rw [if_pos e] at h₁
    rw [if_pos (fun h => e h.symm)] at h₂
    have n₁ := of_decide_eq_false h₁
    have n₂ := of_decide_eq_false h₂
    omega

theorem semverLtB_asymm {a b : SemVer} (h : semverLtB a b = true) :
    semverLtB b a = false := by
  by_contra hc
  have h₂ : semverLtB b a = true := by
    cases hba : semverLtB b a
    · exact absurd hba hc
    · rfl
  have := semverLtB_trans h h₂
  rw [semverLtB_irrefl] at this
  exact Bool.noConfusion this

/-! ## `semver.validRange` (modelled grammar, see the header comment) -/

/-- One X-range of the grammar: `[v]I(.I(.I(-pre)?(+build)?)?)?` with
X-range identifiers `I`; a prerelease or build part is only admitted when
all three components are present. -/
def xrpOk (cs0 : List Char) : Bool :=
  let cs := if ['v'].isPrefixOf cs0 then cs0.drop 1 else cs0
  let t := splitVersionCore cs
  match splitChar '.' t.1 with
  | [a] => xrangeIdent a && t.2.1 = none && t.2.2 = none
  | [a, b] => xrangeIdent a && xrangeIdent b && t.2.1 = none && t.2.2 = none
  | [a, b, c] =>
    xrangeIdent a && xrangeIdent b && xrangeIdent c &&
      (match t.2.1 with | none => true | some p => preOk p) &&
      (match t.2.2 with | none => true | some bl => buildOk bl)
  | _ => false

/-- A comparator: empty (matches everything) or an X-range. -/
def comparatorValid (cs : List Char) : Bool :=
  cs.isEmpty || xrpOk cs

/-- `semver.validRange` is truthy: every `||`-separated alternative is a
space-separated list of valid comparators. -/
def validRange (s : String) : Bool :=
  (splitBars s.data).all fun part => (splitChar ' ' part).all comparatorValid

/-! ## Ranges as used by `semver.maxSatisfying` on directive values -/

/-- The shapes a resolved directive value can denote as a range:
everything, a major channel `A`, a minor channel `A.B`, or an exact
version equality. -/
inductive RangeSpec where
  | any
  | majorOnly (a : Nat)
  | minorChannel (a b : Nat)
  | exact (v : SemVer)
deriving Repr, DecidableEq

/-- Parse a directive value as a range (the shapes produced by the resolver:
`""`, wildcards, `A`, `A.B`, `A.B.x` and full versions).  `none` models an
invalid range, on which `semver.maxSatisfying` returns null. -/
def parseRangeValue (s : String) : Option RangeSpec :=
  let cs := if ['v'].isPrefixOf s.data then s.data.drop 1 else s.data
  if cs.all (fun c => c = ' ') then some .any
  else
    match parseSemVerL cs with
    | some v => some (.exact v)
    | none =>
      match splitChar '.' cs with
      | [a] =>
        if isXid a then some .any
        else if numOk a then some (.majorOnly (natOf a)) else none
      | [a, b] =>
        if isXid a then some .any
        else if numOk a then
          if isXid b then some (.majorOnly (natOf a))
          else if numOk b then some (.minorChannel (natOf a) (natOf b))
          else none
        else none
      | [a, b, c] =>
        if isXid a then some .any
        else if numOk a then
          if isXid b then some (.majorOnly (natOf a))
          else if numOk b then
            if isXid c then some (.minorChannel (natOf a) (natOf b)) else none
          else none
        else none
      | _ => none

/-- `semver.satisfies` with `includePrerelease: true` against a parsed range:
channels desugar to the half-open interval `[A.B.0, A.(B+1).0-0)`
(resp. `[A.0.0, (A+1).0.0-0)`), exact versions to equality. -/
def satisfiesSpec (v : SemVer) : RangeSpec → Bool
  | .any => true
  | .majorOnly a =>
    !semverLtB v ⟨a, 0, 0, []⟩ && semverLtB v ⟨a + 1, 0, 0, [.num 0]⟩
  | .minorChannel a b =>
    !semverLtB v ⟨a, b, 0, []⟩ && semverLtB v ⟨a, b + 1, 0, [.num 0]⟩
  | .exact u => v = u

/-- Does the directory name `n` count as satisfying the range string
`value`?  (It must parse as a version and satisfy the parsed range.) -/
def nameSatisfies (value n : String) : Bool :=
  match parseSemVer n, parseRangeValue value with
  | some v, some r => satisfiesSpec v r
  | _, _ => false

/-- The maximum-tracking scan of `semver.maxSatisfying`: walk the names in
order and keep the greatest parsed-and-satisfying one (the first of equals). -/
def pickMax (r : RangeSpec) : List String → Option (String × SemVer) →
    Option (String × SemVer)
  | [], acc => acc
  | n :: ns, acc =>
    match parseSemVer n with
    | none => pickMax r ns acc
    | some v =>
      if satisfiesSpec v r then
        match acc with
        | none => pickMax r ns (some (n, v))
        | some (_m, mv) =>
          if semverLtB mv v then pickMax r ns (some (n, v))
          else pickMax r ns acc
      else pickMax r ns acc

/-- `semver.maxSatisfying(names, range, {includePrerelease: true})`:
null when the range is invalid or nothing satisfies it, otherwise the
greatest satisfying name. -/
def maxSatisfying (names : List String) (range : String) : Option String :=
  match parseRangeValue range with
  | none => none
  | some r => (pickMax r names none).map (fun p => p.1)

/-! ## `DotnetVersionResolver` (installer.ts lines 19–110) -/

/-- The `DotnetVersion` interface of installer.ts (lines 13–17). -/
structure DotnetVersion where
  type : String
  value : String
  qualityFlag : Bool
deriving Repr, DecidableEq

/-- The two distinct `throw new Error(...)` sites of the resolver, carrying
the data interpolated into their messages. -/
inductive InstallerError where
  | invalidFormat (input : String)
  | channelNotFound (requested : String) (url : String)
deriving Repr, DecidableEq

/-- The exact message strings thrown by installer.ts (lines 30–32, 98–102). -/
def InstallerError.message : InstallerError → String
  | .invalidFormat input =>
    "\x27dotnet-version\x27 was supplied in invalid format: " ++ input ++
      "! Supported syntax: A.B.C, A.B, A.B.x, A, A.x"
  | .channelNotFound requested url =>
    "Could not find info for version " ++ requested ++ " at " ++ url

/-- One entry of the remote release index: its `channel-version` field
(installer.ts lines 90–95). -/
structure ReleaseEntry where
  channelVersion : String
deriving Repr, DecidableEq

/-- `DotnetVersionResolver.DotNetCoreIndexUrl` (installer.ts lines 108–109). -/
def dotNetCoreIndexUrl : String :=
  "https://dotnetcli.azureedge.net/dotnet/release-metadata/releases-index.json"

/-- JS `s.split(".")`. -/
def splitDot (s : String) : List String :=
  (splitChar '.' s.data).map (fun l => ⟨l⟩)

/-- `getLatestVersion` (installer.ts lines 82–106): one fetch of the release
index (passed here as data), then the first entry whose `channel-version`
has the requested major component, else the channel-not-found error whose
message joins `[major, minor]` with `.` (an absent minor prints as empty). -/
def getLatestVersion (index : List ReleaseEntry) (major : String)
    (minor : Option String) : Except InstallerError String :=
  match index.find? (fun e => (splitDot e.channelVersion).headD "" == major) with
  | some e => .ok e.channelVersion
  | none =>
    .error (.channelNotFound (major ++ "." ++ minor.getD "") dotNetCoreIndexUrl)

/-- `resolveVersionInput` (installer.ts lines 28–57) on the trimmed input
(the constructor, line 24, trims).  The second component counts the release
index fetches performed (the `getJson` calls).  The quality flag is
`+major >= 6` (line 55): for the non-numeric majors reachable past range
validation the unary plus yields NaN, hence `false`. -/
def resolveVersionInput (index : List ReleaseEntry) (inputVersion : String) :
    Except InstallerError DotnetVersion × Nat :=
  if validRange inputVersion then
    if (parseSemVer inputVersion).isSome then
      (.ok { type := "version", value := inputVersion, qualityFlag := false }, 0)
    else
      let parts := splitDot inputVersion
      let major := parts.headD ""
      let qualityFlag := isNumericTag major && decide (6 ≤ natOfStr major)
      if isNumericTag major then
        match parts.tail.head? with
        | some minor =>
          if isNumericTag minor then
            (.ok { type := "channel", value := major ++ "." ++ minor,
                   qualityFlag := qualityFlag }, 0)
          else
            match getLatestVersion index major (some minor) with
            | .ok latest =>
              (.ok { type := "channel", value := latest,
                     qualityFlag := qualityFlag }, 1)
            | .error e => (.error e, 1)
        | none =>
          match getLatestVersion index major none with
          | .ok latest =>
            (.ok { type := "channel", value := latest,
                   qualityFlag := qualityFlag }, 1)
          | .error e => (.error e, 1)
      else
        (.ok { type := "", value := "", qualityFlag := qualityFlag }, 0)
  else
    (.error (.invalidFormat inputVersion), 0)

/-- The OS family distinguished by `IS_WINDOWS` / `IS_LINUX` of `./utils`
(not part of src/; modelled from the spec, which distinguishes the Windows
family, the Linux family and the remaining Unix-like (mac) family). -/
inductive OSFamily where
  | windows
  | linux
  | mac
deriving Repr, DecidableEq

/-- `createDotNetVersion` (installer.ts lines 63–80): resolve, then — unless
no directive was produced — render the directive kind into the
platform-specific flag name. -/
def createDotNetVersion (os : OSFamily) (index : List ReleaseEntry)
    (inputVersion : String) : Except InstallerError DotnetVersion × Nat :=
  match resolveVersionInput index inputVersion with
  | (.error e, n) => (.error e, n)
  | (.ok dv, n) =>
    if dv.type = "" then (.ok dv, n)
    else if os = .windows then
      (.ok { dv with type := if dv.type = "channel" then "-Channel" else "-Version" }, n)
    else
      (.ok { dv with type := if dv.type = "channel" then "--channel" else "--version" }, n)

/-! ## `InstallDir` (installer.ts lines 112–151) -/

/-- The process environment values the installer reads and writes.
`none` models an unset variable; JS renders an unset variable as the
string `"undefined"` when concatenated. -/
structure Env where
  dotnetInstallDir : Option String
  programFiles : Option String
  home : Option String
  httpsProxy : Option String
  noProxy : Option String
deriving Repr, DecidableEq

/-- `InstallDir.base` (installer.ts lines 113–117): the platform default
root, computed from the ambient environment (`path.join` on simple
segments is separator concatenation). -/
def installDirBase (os : OSFamily) (env : Env) : String :=
  match os with
  | .windows => env.programFiles.getD "undefined" ++ "\\dotnet"
  | .mac => env.home.getD "undefined" ++ "/.dotnet"
  | .linux => "/usr/share/dotnet"

/-- The path separator used by the constructor's template strings. -/
def pathSep (os : OSFamily) : String :=
  match os with
  | .windows => "\\"
  | _ => "/"

/-- The `InstallDir` constructor (installer.ts lines 119–140): writes
`DOTNET_INSTALL_DIR` to `base + sep + majorVersion` on every branch,
where `majorVersion = version.split(".").at(0)`. -/
def installDirConstruct (os : OSFamily) (env : Env) (version : String) : Env :=
  let majorVersion := (splitDot version).headD ""
  let dir := installDirBase os env ++ pathSep os ++ majorVersion
  { env with dotnetInstallDir := some dir }

/-- The `path` getter (installer.ts lines 142–150): the environment value
when it is set and truthy (nonempty), else the platform base. -/
def installDirPath (os : OSFamily) (env : Env) : String :=
  match env.dotnetInstallDir with
  | some p => if p = "" then installDirBase os env else p
  | none => installDirBase os env

/-! ## `DotnetCoreInstaller` argument building (installer.ts lines 169–237) -/

/-- `windowsDefaultOptions` (installer.ts lines 184–192). -/
def windowsDefaultOptions : List String :=
  ["-NoLogo", "-Sta", "-NoProfile", "-NonInteractive", "-ExecutionPolicy",
   "Unrestricted", "-Command"]

/-- The platform-specific quality flag name (installer.ts line 173). -/
def qualityOption (os : OSFamily) : String :=
  if os = .windows then "-Quality" else "--quality"

/-- The warning emitted when the directive does not support a quality
(installer.ts lines 177–179); `versionInput` is `this.version`. -/
def qualityWarning (versionInput : String) : String :=
  "\x27dotnet-quality\x27 input can be used only with .NET SDK version in A.B, " ++
    "A.B.x, A and A.x formats where the major tag is higher than 5. " ++
    "You specified: " ++ versionInput ++ ". \x27dotnet-quality\x27 input is ignored."

/-- `setQuality` (installer.ts lines 169–181): push the flag and the value
when the directive supports a quality, else emit the warning; returns the
argument list and the warnings emitted. -/
def setQuality (os : OSFamily) (versionInput quality : String)
    (dv : DotnetVersion) (args : List String) : List String × List String :=
  if dv.qualityFlag then (args ++ [qualityOption os, quality], [])
  else (args, [qualityWarning versionInput])

/-- The argument list built by `installDotnet` (installer.ts lines 203–237)
before the subprocess call, together with the warnings emitted.
`quality = ""` models an absent `dotnet-quality` input (falsy). -/
def buildScriptArguments (os : OSFamily) (escapedScript : String) (env : Env)
    (versionInput quality : String) (dv : DotnetVersion) :
    List String × List String :=
  if os = .windows then
    let args := ["&", "\x27" ++ escapedScript ++ "\x27", "-SkipNonVersionedFiles"]
    let args := if dv.type = "" then args else args ++ [dv.type, dv.value]
    let p := if quality = "" then (args, [])
             else setQuality os versionInput quality dv args
    let args := match env.httpsProxy with
      | some pr => p.1 ++ ["-ProxyAddress " ++ pr]
      | none => p.1
    let args := match env.noProxy with
      | some pr => args ++ ["-ProxyBypassList " ++ pr]
      | none => args
    (windowsDefaultOptions ++ args, p.2)
  else
    let args := ["--skip-non-versioned-files"]
    let args := if dv.type = "" then args else args ++ [dv.type, dv.value]
    if quality = "" then (args, [])
    else setQuality os versionInput quality dv args

/-- The version/channel flag segment of the argument list (pushed only when
the resolver produced a directive, installer.ts lines 206–208, 230–232). -/
def versionChannelPart (dv : DotnetVersion) : List String :=
  if dv.type = "" then [] else [dv.type, dv.value]

/-- The fixed leading arguments plus the version/channel segment. -/
def scriptArgsBase (os : OSFamily) (escapedScript : String)
    (dv : DotnetVersion) : List String :=
  if os = .windows then
    windowsDefaultOptions ++
      (["&", "\x27" ++ escapedScript ++ "\x27", "-SkipNonVersionedFiles"] ++
        versionChannelPart dv)
  else ["--skip-non-versioned-files"] ++ versionChannelPart dv

/-- The Windows proxy passthrough segment (installer.ts lines 214–220):
appended whenever the variables are non-null (the empty string counts). -/
def proxyArgs (env : Env) : List String :=
  (match env.httpsProxy with
   | some pr => ["-ProxyAddress " ++ pr]
   | none => []) ++
  (match env.noProxy with
   | some pr => ["-ProxyBypassList " ++ pr]
   | none => [])

/-! ## `outputDotnetVersion` (installer.ts lines 257–267) -/

/-- The post-install version determination: `semver.maxSatisfying` over the
directory names listed under the `sdk` subdirectory of the install
directory, with `includePrerelease: true`.  The source applies a
TypeScript non-null assertion (`!`) to the result and returns it: when
nothing satisfies, the runtime value is null — modelled as `none`; no
error is thrown on that path. -/
def outputDotnetVersion (sdkDirNames : List String) (version : String) :
    Option String :=
  maxSatisfying sdkDirNames version

/-! ## Properties of the maximum-tracking scan -/

theorem pickMax_acc_isSome (r : RangeSpec) :
    ∀ (ns : List String) (p : String × SemVer),
      (pickMax r ns (some p)).isSome = true
  | [], _ => rfl
  | n :: ns, p => by
    simp only [pickMax]
    cases hp : parseSemVer n with
    | none => exact pickMax_acc_isSome r ns p
    | some v =>
      simp only []
      by_cases hs : satisfiesSpec v r = true
      · rw [if_pos hs]
        obtain ⟨a, av⟩ := p
        simp only []
        by_cases hlt : semverLtB av v = true
        · rw [if_pos hlt]
          exact pickMax_acc_isSome r ns (n, v)
        · rw [if_neg hlt]
          exact pickMax_acc_isSome r ns (a, av)
      · rw [if_neg hs]
        exact pickMax_acc_isSome r ns p

theorem pickMax_acc_ge (r : RangeSpec) :
    ∀ (ns : List String) (a : String) (av : SemVer) (m : String) (mv : SemVer),
      pickMax r ns (some (a, av)) = some (m, mv) → semverLtB mv av = false
  | [], a, av, m, mv, h => by
    simp only [pickMax, Option.some.injEq, Prod.mk.injEq] at h
    rw [← h.2, semverLtB_irrefl]
  | n :: ns, a, av, m, mv, h => by
    simp only [pickMax] at h
    cases hp : parseSemVer n with
    | none =>
      rw [hp] at h
      exact pickMax_acc_ge r ns a av m mv h
    | some v =>
      rw [hp] at h
      simp only [] at h
      by_cases hs : satisfiesSpec v r = true
      · rw [if_pos hs] at h
        by_cases hlt : semverLtB av v = true
        · rw [if_pos hlt] at h
          have h₂ := pickMax_acc_ge r ns n v m mv h
          by_contra hc
          have hc' : semverLtB mv av = true := by
            cases hx : semverLtB mv av
            · exact absurd hx hc
            · rfl
          rw [semverLtB_trans hc' hlt] at h₂
          exact Bool.noConfusion h₂
        · rw [if_neg hlt] at h
          exact pickMax_acc_ge r ns a av m mv h
      · rw [if_neg hs] at h
        exact pickMax_acc_ge r ns a av m mv h

theorem pickMax_mem (r : RangeSpec) :
    ∀ (ns : List String) (acc : Option (String × SemVer)) (m : String) (mv : SemVer),
      pickMax r ns acc = some (m, mv) →
      acc = some (m, mv) ∨
        (m ∈ ns ∧ parseSemVer m = some mv ∧ satisfiesSpec mv r = true)
  | [], acc, m, mv, h => Or.inl h
  | n :: ns, acc, m, mv, h => by
    simp only [pickMax] at h
    cases hp : parseSemVer n with
    | none =>
      rw [hp] at h
      rcases pickMax_mem r ns acc m mv h with hl | ⟨h₁, h₂, h₃⟩
      · exact Or.inl hl
      · exact Or.inr ⟨List.mem_cons_of_mem n h₁, h₂, h₃⟩
    | some v =>
      rw [hp] at h
      simp only [] at h
      by_cases hs : satisfiesSpec v r = true
      · rw [if_pos hs] at h
        cases acc with
        | none =>
          rcases pickMax_mem r ns (some (n, v)) m mv h with hl | ⟨h₁, h₂, h₃⟩
          · simp only [Option.some.injEq, Prod.mk.injEq] at hl
            refine Or.inr ⟨?_, ?_, ?_⟩
            · rw [← hl.1]; exact List.mem_cons_self n ns
            · rw [← hl.1, ← hl.2]; exact hp
            · rw [← hl.2]; exact hs
          · exact Or.inr ⟨List.mem_cons_of_mem n h₁, h₂, h₃⟩
        | some p =>
          obtain ⟨a, av⟩ := p
          simp only [] at h
          by_cases hlt : semverLtB av v = true
          · rw [if_pos hlt] at h
            rcases pickMax_mem r ns (some (n, v)) m mv h with hl | ⟨h₁, h₂, h₃⟩
            · simp only [Option.some.injEq, Prod.mk.injEq] at hl
              refine Or.inr ⟨?_, ?_, ?_⟩
              · rw [← hl.1]; exact List.mem_cons_self n ns
              · rw [← hl.1, ← hl.2]; exact hp
              · rw [← hl.2]; exact hs
            · exact Or.inr ⟨List.mem_cons_of_mem n h₁, h₂, h₃⟩
          · rw [if_neg hlt] at h
            rcases pickMax_mem r ns (some (a, av)) m mv h with hl | ⟨h₁, h₂, h₃⟩
            · exact Or.inl hl
            · exact Or.inr ⟨List.mem_cons_of_mem n h₁, h₂, h₃⟩
      · rw [if_neg hs] at h
        rcases pickMax_mem r ns acc m mv h with hl | ⟨h₁, h₂, h₃⟩
        · exact Or.inl hl
        · exact Or.inr ⟨List.mem_cons_of_mem n h₁, h₂, h₃⟩

theorem pickMax_ge (r : RangeSpec) :
    ∀ (ns : List String) (acc : Option (String × SemVer)) (m : String) (mv : SemVer),
      pickMax r ns acc = some (m, mv) →
      ∀ (n : String) (vn : SemVer), n ∈ ns → parseSemVer n = some vn →
        satisfiesSpec vn r = true → semverLtB mv vn = false
  | [], _, _, _, _, _, _, hmem, _, _ => absurd hmem (List.not_mem_nil _)
  | hd :: ns, acc, m, mv, h, n, vn, hmem, hpn, hsn => by
    simp only [pickMax] at h
    cases hph : parseSemVer hd with
    | none =>
      rw [hph] at h
      rcases List.mem_cons.mp hmem with he | ht
      · rw [he, hph] at hpn
        exact Option.noConfusion hpn
      · exact pickMax_ge r ns acc m mv h n vn ht hpn hsn
    | some v =>
      rw [hph] at h
      simp only [] at h
      by_cases hs : satisfiesSpec v r = true
      · rw [if_pos hs] at h
        cases acc with
        | none =>
          rcases List.mem_cons.mp hmem with he | ht
          · have hv : v = vn := by
              rw [he, hph] at hpn
              exact Option.some.inj hpn
            rw [← hv]
            exact pickMax_acc_ge r ns hd v m mv h
          · exact pickMax_ge r ns (some (hd, v)) m mv h n vn ht hpn hsn
        | some p =>
          obtain ⟨a, av⟩ := p
          simp only [] at h
          by_cases hlt : semverLtB av v = true
          · rw [if_pos hlt] at h
            rcases List.mem_cons.mp hmem with he | ht
            · have hv : v = vn := by
                rw [he, hph] at hpn
                exact Option.some.inj hpn
              rw [← hv]
              exact pickMax_acc_ge r ns hd v m mv h
            · exact pickMax_ge r ns (some (hd, v)) m mv h n vn ht hpn hsn
          · rw [if_neg hlt] at h
            rcases List.mem_cons.mp hmem with he | ht
            · have hv : v = vn := by
                rw [he, hph] at hpn
                exact Option.some.inj hpn
              have hge : semverLtB mv av = false :=
                pickMax_acc_ge r ns a av m mv h
              rw [← hv]
              by_contra hc
              have hc' : semverLtB mv v = true := by
                cases hx : semverLtB mv v
                · exact absurd hx hc
                · rfl
              by_cases he' : av = mv
              · rw [he'] at hlt
                exact hlt hc'
              · have havmv : semverLtB av mv = true := by
                  cases hx : semverLtB av mv
                  · exact absurd (semverLtB_connex hge hx).symm he'
                  · rfl
                rw [semverLtB_trans havmv hc'] at hlt
                exact hlt rfl
            · exact pickMax_ge r ns (some (a, av)) m mv h n vn ht hpn hsn
      · rw [if_neg hs] at h
        rcases List.mem_cons.mp hmem with he | ht
        · have hv : v = vn := by
            rw [he, hph] at hpn
            exact Option.some.inj hpn
          rw [← hv] at hsn
          exact absurd hsn hs
        · exact pickMax_ge r ns acc m mv h n vn ht hpn hsn

theorem pickMax_isSome_of_sat (r : RangeSpec) :
    ∀ (ns : List String) (acc : Option (String × SemVer)) (n : String) (vn : SemVer),
      n ∈ ns → parseSemVer n = some vn → satisfiesSpec vn r = true →
      (pickMax r ns acc).isSome = true
  | [], _, _, _, hmem, _, _ => absurd hmem (List.not_mem_nil _)
  | hd :: ns, acc, n, vn, hmem, hpn, hsn => by
    simp only [pickMax]
    cases hph : parseSemVer hd with
    | none =>
      rcases List.mem_cons.mp hmem with he | ht
      · rw [he, hph] at hpn
        exact Option.noConfusion hpn
      · exact pickMax_isSome_of_sat r ns acc n vn ht hpn hsn
    | some v =>
      simp only []
      by_cases hs : satisfiesSpec v r = true
      · rw [if_pos hs]
        cases acc with
        | none => exact pickMax_acc_isSome r ns (hd, v)
        | some p =>
          obtain ⟨a, av⟩ := p
          simp only []
          by_cases hlt : semverLtB av v = true
          · rw [if_pos hlt]
            exact pickMax_acc_isSome r ns (hd, v)
          · rw [if_neg hlt]
            exact pickMax_acc_isSome r ns (a, av)
      · rw [if_neg hs]
        rcases List.mem_cons.mp hmem with he | ht
        · have hv : v = vn := by
            rw [he, hph] at hpn
            exact Option.some.inj hpn
          rw [hv] at hs
          exact absurd hsn hs
        · exact pickMax_isSome_of_sat r ns acc n vn ht hpn hsn

theorem pickMax_none_of_none_sat (r : RangeSpec) :
    ∀ (ns : List String),
      (∀ n ∈ ns, ∀ vn : SemVer, parseSemVer n = some vn →
        satisfiesSpec vn r = false) →
      pickMax r ns none = none
  | [], _ => rfl
  | hd :: ns, h => by
    simp only [pickMax]
    cases hph : parseSemVer hd with
    | none =>
      exact pickMax_none_of_none_sat r ns
        (fun n hn vn hp => h n (List.mem_cons_of_mem hd hn) vn hp)
    | some v =>
      simp only []
      have hs := h hd (List.mem_cons_self hd ns) v hph
      rw [if_neg (by rw [hs]; exact Bool.noConfusion)]
      exact pickMax_none_of_none_sat r ns
        (fun n hn vn hp => h n (List.mem_cons_of_mem hd hn) vn hp)

/-! ## Symbolic evaluation of the resolver on shaped inputs -/

theorem not_mem_of_all_digit {x : Char} (hx : x.isDigit = false) {cs : List Char}
    (h : cs.all Char.isDigit = true) : x ∉ cs := by
  intro hm
  have hd := List.all_eq_true.mp h x hm
  rw [hx] at hd
  exact Bool.noConfusion hd

theorem not_mem_append_cons {x sep : Char} {as bs : List Char}
    (ha : x ∉ as) (hsep : x ≠ sep) (hb : x ∉ bs) : x ∉ as ++ sep :: bs := by
  intro hm
  rcases List.mem_append.mp hm with h | h
  · exact ha h
  · rcases List.mem_cons.mp h with h | h
    · exact hsep h
    · exact hb h

theorem canonical_facts {A : String} (h : canonicalNumericTag A = true) :
    A.data ≠ [] ∧ A.data.all Char.isDigit = true := by
  unfold canonicalNumericTag numOk at h
  simp only [Bool.and_eq_true] at h
  refine ⟨?_, h.1.2⟩
  have he := h.1.1
  intro hnil
  rw [hnil] at he
  simp at he

theorem v_not_prefixOf_digits {cs : List Char} (hne : cs ≠ [])
    (h : cs.all Char.isDigit = true) : ['v'].isPrefixOf cs = false := by
  cases cs with
  | nil => exact absurd rfl hne
  | cons c cs =>
    have hd : c.isDigit = true := List.all_eq_true.mp h c (List.mem_cons_self c cs)
    have hv : ¬ ('v' = c) := by
      intro e
      rw [← e] at hd
      exact absurd hd (by decide)
    simp [List.isPrefixOf, hv]

theorem splitVersionCore_clean {cs : List Char} (h1 : '+' ∉ cs) (h2 : '-' ∉ cs) :
    splitVersionCore cs = (cs, none, none) := by
  unfold splitVersionCore
  rw [breakAt_of_not_mem _ h1]
  simp only []
  rw [breakAt_of_not_mem _ h2]

theorem xrangeIdent_of_canonical {A : String} (h : canonicalNumericTag A = true) :
    xrangeIdent A.data = true := by
  unfold xrangeIdent
  unfold canonicalNumericTag at h
  rw [h]
  rfl

theorem isNumericTag_of_canonical {A : String} (h : canonicalNumericTag A = true) :
    isNumericTag A = true := by
  obtain ⟨h1, h2⟩ := canonical_facts h
  unfold isNumericTag
  rw [h2]
  cases hd : A.data with
  | nil => exact absurd hd h1
  | cons c cs => rfl

/-- The not-mem package used to evaluate the grammar on a digit string. -/
theorem digit_str_facts {A : String} (h : canonicalNumericTag A = true) :
    '.' ∉ A.data ∧ '|' ∉ A.data ∧ ' ' ∉ A.data ∧ '+' ∉ A.data ∧ '-' ∉ A.data ∧
      ['v'].isPrefixOf A.data = false := by
  obtain ⟨h1, h2⟩ := canonical_facts h
  exact ⟨not_mem_of_all_digit (by decide) h2, not_mem_of_all_digit (by decide) h2,
    not_mem_of_all_digit (by decide) h2, not_mem_of_all_digit (by decide) h2,
    not_mem_of_all_digit (by decide) h2, v_not_prefixOf_digits h1 h2⟩

theorem xrpOk_parts {cs : List Char} (hv : ['v'].isPrefixOf cs = false)
    (hplus : '+' ∉ cs) (hminus : '-' ∉ cs) :
    xrpOk cs = (match splitChar '.' cs with
      | [a] => xrangeIdent a
      | [a, b] => xrangeIdent a && xrangeIdent b
      | [a, b, c] => xrangeIdent a && xrangeIdent b && xrangeIdent c
      | _ => false) := by
  unfold xrpOk
  rw [hv]
  simp only [Bool.false_eq_true, if_false, splitVersionCore_clean hplus hminus]
  cases hsp : splitChar '.' cs with
  | nil => rfl
  | cons a rest =>
    cases rest with
    | nil => simp
    | cons b rest2 =>
      cases rest2 with
      | nil => simp
      | cons c rest3 =>
        cases rest3 with
        | nil => simp
        | cons d rest4 => rfl

theorem validRange_of_xrp {s : String} (hbar : '|' ∉ s.data) (hsp : ' ' ∉ s.data)
    (hx : xrpOk s.data = true) : validRange s = true := by
  unfold validRange
  rw [splitBars_of_not_mem _ hbar]
  simp only [List.all_cons, List.all_nil, Bool.and_true]
  rw [splitChar_of_not_mem _ hsp]
  simp [comparatorValid, hx]

theorem parseSemVerL_of_parts {cs : List Char} (hv : ['v'].isPrefixOf cs = false)
    (hplus : '+' ∉ cs) (hminus : '-' ∉ cs) :
    parseSemVerL cs = (match splitChar '.' cs with
      | [a, b, c] =>
        if numOk a && numOk b && numOk c then some ⟨natOf a, natOf b, natOf c, []⟩
        else none
      | _ => none) := by
  unfold parseSemVerL
  rw [hv]
  simp only [Bool.false_eq_true, if_false, splitVersionCore_clean hplus hminus]
  cases hsp : splitChar '.' cs with
  | nil => rfl
  | cons a rest =>
    cases rest with
    | nil => simp
    | cons b rest2 =>
      cases rest2 with
      | nil => simp
      | cons c rest3 =>
        cases rest3 with
        | nil => simp
        | cons d rest4 => rfl

theorem pair_data (A B : String) :
    (A ++ "." ++ B).data = A.data ++ '.' :: B.data := by
  rw [data_append, data_append]
  simp

theorem triple_data (A B C : String) :
    (A ++ "." ++ B ++ "." ++ C).data =
      A.data ++ '.' :: (B.data ++ '.' :: C.data) := by
  rw [data_append, data_append, data_append, data_append]
  simp

theorem splitDot_single {A : String} (hA : '.' ∉ A.data) : splitDot A = [A] := by
  unfold splitDot
  rw [splitChar_of_not_mem _ hA]
  rfl

theorem splitDot_pair {A B : String} (hA : '.' ∉ A.data) (hB : '.' ∉ B.data) :
    splitDot (A ++ "." ++ B) = [A, B] := by
  unfold splitDot
  rw [pair_data, splitChar_append _ hA, splitChar_of_not_mem _ hB]
  rfl

theorem splitDot_triple {A B C : String} (hA : '.' ∉ A.data) (hB : '.' ∉ B.data)
    (hC : '.' ∉ C.data) : splitDot (A ++ "." ++ B ++ "." ++ C) = [A, B, C] := by
  unfold splitDot
  rw [triple_data, splitChar_append _ hA, splitChar_append _ hB,
    splitChar_of_not_mem _ hC]
  rfl

theorem v_not_prefixOf_digit_head {A : String} (hA : canonicalNumericTag A = true)
    (rest : List Char) : ['v'].isPrefixOf (A.data ++ rest) = false := by
  obtain ⟨h1, h2⟩ := canonical_facts hA
  cases hAd : A.data with
  | nil => exact absurd hAd h1
  | cons c cs =>
    have hcd : c.isDigit = true := by
      apply List.all_eq_true.mp h2 c
      rw [hAd]
      exact List.mem_cons_self c cs
    rw [List.cons_append]
    have hvc : ¬ ('v' = c) := by
      intro e
      rw [← e] at hcd
      exact absurd hcd (by decide)
    simp [List.isPrefixOf, hvc]

theorem str_ext {s t : String} (h : s.data = t.data) : s = t := by
  cases s
  cases t
  exact congrArg String.mk h

/-- The resolver on `A.B` with canonical numeric `A`, `B`: a local channel
directive, no fetch. -/
theorem resolve_minor_channel (index : List ReleaseEntry) {A B : String}
    (hA : canonicalNumericTag A = true) (hB : canonicalNumericTag B = true) :
    resolveVersionInput index (A ++ "." ++ B) =
      (.ok { type := "channel", value := A ++ "." ++ B,
             qualityFlag := decide (6 ≤ natOfStr A) }, 0) := by
  obtain ⟨hneA, hdigA⟩ := canonical_facts hA
  obtain ⟨hneB, hdigB⟩ := canonical_facts hB
  have hdotA := not_mem_of_all_digit (x := '.') (by decide) hdigA
  have hdotB := not_mem_of_all_digit (x := '.') (by decide) hdigB
  have hd := pair_data A B
  have hplusL : '+' ∉ A.data ++ '.' :: B.data :=
    not_mem_append_cons (not_mem_of_all_digit (by decide) hdigA) (by decide)
      (not_mem_of_all_digit (by decide) hdigB)
  have hminusL : '-' ∉ A.data ++ '.' :: B.data :=
    not_mem_append_cons (not_mem_of_all_digit (by decide) hdigA) (by decide)
      (not_mem_of_all_digit (by decide) hdigB)
  have hbarL : '|' ∉ A.data ++ '.' :: B.data :=
    not_mem_append_cons (not_mem_of_all_digit (by decide) hdigA) (by decide)
      (not_mem_of_all_digit (by decide) hdigB)
  have hspL : ' ' ∉ A.data ++ '.' :: B.data :=
    not_mem_append_cons (not_mem_of_all_digit (by decide) hdigA) (by decide)
      (not_mem_of_all_digit (by decide) hdigB)
  have hvL : ['v'].isPrefixOf (A.data ++ '.' :: B.data) = false :=
    v_not_prefixOf_digit_head hA _
  have hsplitL : splitChar '.' (A.data ++ '.' :: B.data) = [A.data, B.data] := by
    rw [splitChar_append _ hdotA, splitChar_of_not_mem _ hdotB]
  have hval : validRange (A ++ "." ++ B) = true := by
    apply validRange_of_xrp (by rw [hd]; exact hbarL) (by rw [hd]; exact hspL)
    rw [hd, xrpOk_parts hvL hplusL hminusL, hsplitL]
    simp [xrangeIdent_of_canonical hA, xrangeIdent_of_canonical hB]
  have hparse : parseSemVer (A ++ "." ++ B) = none := by
    unfold parseSemVer
    rw [hd, parseSemVerL_of_parts hvL hplusL hminusL, hsplitL]
  have hsd : splitDot (A ++ "." ++ B) = [A, B] := splitDot_pair hdotA hdotB
  unfold resolveVersionInput
  rw [hval, hparse, hsd]
  simp [isNumericTag_of_canonical hA, isNumericTag_of_canonical hB]

theorem append_empty_str (s : String) : s ++ "" = s := by
  cases s with
  | mk d => exact congrArg String.mk (List.append_nil d)

/-- The resolver on `A.B.x` with canonical numeric `A`, `B`: the same local
channel directive `A.B`, no fetch (the wildcard patch is dropped by the
destructuring into `[major, minor]`). -/
theorem resolve_patch_wildcard (index : List ReleaseEntry) {A B : String}
    (hA : canonicalNumericTag A = true) (hB : canonicalNumericTag B = true) :
    resolveVersionInput index (A ++ "." ++ B ++ ".x") =
      (.ok { type := "channel", value := A ++ "." ++ B,
             qualityFlag := decide (6 ≤ natOfStr A) }, 0) := by
  obtain ⟨hneA, hdigA⟩ := canonical_facts hA
  obtain ⟨hneB, hdigB⟩ := canonical_facts hB
  have hdotA := not_mem_of_all_digit (x := '.') (by decide) hdigA
  have hdotB := not_mem_of_all_digit (x := '.') (by decide) hdigB
  have hd : (A ++ "." ++ B ++ ".x").data =
      A.data ++ '.' :: (B.data ++ '.' :: ['x']) := by
    rw [data_append, data_append, data_append]
    simp
  have hplusL : '+' ∉ A.data ++ '.' :: (B.data ++ '.' :: ['x']) :=
    not_mem_append_cons (not_mem_of_all_digit (by decide) hdigA) (by decide)
      (not_mem_append_cons (not_mem_of_all_digit (by decide) hdigB) (by decide)
        (by decide))
  have hminusL : '-' ∉ A.data ++ '.' :: (B.data ++ '.' :: ['x']) :=
    not_mem_append_cons (not_mem_of_all_digit (by decide) hdigA) (by decide)
      (not_mem_append_cons (not_mem_of_all_digit (by decide) hdigB) (by decide)
        (by decide))
  have hbarL : '|' ∉ A.data ++ '.' :: (B.data ++ '.' :: ['x']) :=
    not_mem_append_cons (not_mem_of_all_digit (by decide) hdigA) (by decide)
      (not_mem_append_cons (not_mem_of_all_digit (by decide) hdigB) (by decide)
        (by decide))
  have hspL : ' ' ∉ A.data ++ '.' :: (B.data ++ '.' :: ['x']) :=
    not_mem_append_cons (not_mem_of_all_digit (by decide) hdigA) (by decide)
      (not_mem_append_cons (not_mem_of_all_digit (by decide) hdigB) (by decide)
        (by decide))
  have hvL : ['v'].isPrefixOf (A.data ++ '.' :: (B.data ++ '.' :: ['x'])) = false :=
    v_not_prefixOf_digit_head hA _
  have hsplitL : splitChar '.' (A.data ++ '.' :: (B.data ++ '.' :: ['x'])) =
      [A.data, B.data, ['x']] := by
    rw [splitChar_append _ hdotA, splitChar_append _ hdotB,
      splitChar_of_not_mem _ (by decide)]
  have hval : validRange (A ++ "." ++ B ++ ".x") = true := by
    apply validRange_of_xrp (by rw [hd]; exact hbarL) (by rw [hd]; exact hspL)
    rw [hd, xrpOk_parts hvL hplusL hminusL, hsplitL]
    have hx3 : xrangeIdent ['x'] = true := by decide
    simp [xrangeIdent_of_canonical hA, xrangeIdent_of_canonical hB, hx3]
  have hparse : parseSemVer (A ++ "." ++ B ++ ".x") = none := by
    unfold parseSemVer
    rw [hd, parseSemVerL_of_parts hvL hplusL hminusL, hsplitL]
    simp [numOk]
  have hsd : splitDot (A ++ "." ++ B ++ ".x") = [A, B, "x"] := by
    unfold splitDot
    rw [hd, hsplitL]
    rfl
  unfold resolveVersionInput
  rw [hval, hparse, hsd]
  simp [isNumericTag_of_canonical hA, isNumericTag_of_canonical hB]

/-- The resolver on a bare major `A`: one fetch, first matching index entry
or the channel-not-found error naming `A.` and the index URL. -/
theorem resolve_bare_major (index : List ReleaseEntry) {A : String}
    (hA : canonicalNumericTag A = true) :
    resolveVersionInput index A =
      (match index.find? (fun e => (splitDot e.channelVersion).headD "" == A) with
       | some e => (.ok { type := "channel", value := e.channelVersion,
                          qualityFlag := decide (6 ≤ natOfStr A) }, 1)
       | none => (.error (.channelNotFound (A ++ ".") dotNetCoreIndexUrl), 1)) := by
  obtain ⟨hneA, hdigA⟩ := canonical_facts hA
  have hdotA := not_mem_of_all_digit (x := '.') (by decide) hdigA
  have hplusL := not_mem_of_all_digit (x := '+') (by decide) hdigA
  have hminusL := not_mem_of_all_digit (x := '-') (by decide) hdigA
  have hbarL := not_mem_of_all_digit (x := '|') (by decide) hdigA
  have hspL := not_mem_of_all_digit (x := ' ') (by decide) hdigA
  have hvL : ['v'].isPrefixOf A.data = false := v_not_prefixOf_digits hneA hdigA
  have hsplitL : splitChar '.' A.data = [A.data] := splitChar_of_not_mem _ hdotA
  have hval : validRange A = true := by
    apply validRange_of_xrp hbarL hspL
    rw [xrpOk_parts hvL hplusL hminusL, hsplitL]
    simp [xrangeIdent_of_canonical hA]
  have hparse : parseSemVer A = none := by
    unfold parseSemVer
    rw [parseSemVerL_of_parts hvL hplusL hminusL, hsplitL]
  have hsd : splitDot A = [A] := splitDot_single hdotA
  unfold resolveVersionInput
  rw [hval, hparse, hsd]
  simp only [eq_self_iff_true, if_true, Option.isSome_none, Bool.false_eq_true,
    if_false, List.headD_cons, List.tail_cons, List.head?_nil,
    isNumericTag_of_canonical hA, Bool.true_and]
  unfold getLatestVersion
  cases hf : index.find? (fun e => (splitDot e.channelVersion).headD "" == A) with
  | none => simp [append_empty_str]
  | some e => simp

/-- The resolver on `A.x`: one fetch, first matching index entry or the
channel-not-found error naming `A.x` and the index URL. -/
theorem resolve_major_wildcard (index : List ReleaseEntry) {A : String}
    (hA : canonicalNumericTag A = true) :
    resolveVersionInput index (A ++ ".x") =
      (match index.find? (fun e => (splitDot e.channelVersion).headD "" == A) with
       | some e => (.ok { type := "channel", value := e.channelVersion,
                          qualityFlag := decide (6 ≤ natOfStr A) }, 1)
       | none => (.error (.channelNotFound (A ++ ".x") dotNetCoreIndexUrl), 1)) := by
  obtain ⟨hneA, hdigA⟩ := canonical_facts hA
  have hdotA := not_mem_of_all_digit (x := '.') (by decide) hdigA
  have hd : (A ++ ".x").data = A.data ++ '.' :: ['x'] := by
    rw [data_append]
  have hplusL : '+' ∉ A.data ++ '.' :: ['x'] :=
    not_mem_append_cons (not_mem_of_all_digit (by decide) hdigA) (by decide)
      (by decide)
  have hminusL : '-' ∉ A.data ++ '.' :: ['x'] :=
    not_mem_append_cons (not_mem_of_all_digit (by decide) hdigA) (by decide)
      (by decide)
  have hbarL : '|' ∉ A.data ++ '.' :: ['x'] :=
    not_mem_append_cons (not_mem_of_all_digit (by decide) hdigA) (by decide)
      (by decide)
  have hspL : ' ' ∉ A.data ++ '.' :: ['x'] :=
    not_mem_append_cons (not_mem_of_all_digit (by decide) hdigA) (by decide)
      (by decide)
  have hvL : ['v'].isPrefixOf (A.data ++ '.' :: ['x']) = false :=
    v_not_prefixOf_digit_head hA _
  have hsplitL : splitChar '.' (A.data ++ '.' :: ['x']) = [A.data, ['x']] := by
    rw [splitChar_append _ hdotA, splitChar_of_not_mem _ (by decide)]
  have hval : validRange (A ++ ".x") = true := by
    apply validRange_of_xrp (by rw [hd]; exact hbarL) (by rw [hd]; exact hspL)
    rw [hd, xrpOk_parts hvL hplusL hminusL, hsplitL]
    have hx2 : xrangeIdent ['x'] = true := by decide
    simp [xrangeIdent_of_canonical hA, hx2]
  have hparse : parseSemVer (A ++ ".x") = none := by
    unfold parseSemVer
    rw [hd, parseSemVerL_of_parts hvL hplusL hminusL, hsplitL]
  have hsd : splitDot (A ++ ".x") = [A, "x"] := by
    unfold splitDot
    rw [hd, hsplitL]
    rfl
  have hxnum : isNumericTag "x" = false := by decide
  unfold resolveVersionInput
  rw [hval, hparse, hsd]
  simp only [eq_self_iff_true, if_true, Option.isSome_none, Bool.false_eq_true,
    if_false, List.headD_cons, List.tail_cons, List.head?_cons,
    isNumericTag_of_canonical hA, hxnum, Bool.true_and]
  have hax : A ++ "." ++ "x" = A ++ ".x" := by
    apply str_ext
    rw [data_append, data_append, data_append]
    simp
  unfold getLatestVersion
  cases hf : index.find? (fun e => (splitDot e.channelVersion).headD "" == A) with
  | none => simp [hax]
  | some e => simp

/-- The resolver on an exact canonical triple `A.B.C`: an exact version
directive with the input itself as value, quality flag off, no fetch. -/
theorem resolve_exact_triple (index : List ReleaseEntry) {A B C : String}
    (hA : canonicalNumericTag A = true) (hB : canonicalNumericTag B = true)
    (hC : canonicalNumericTag C = true) :
    resolveVersionInput index (A ++ "." ++ B ++ "." ++ C) =
      (.ok { type := "version", value := A ++ "." ++ B ++ "." ++ C,
             qualityFlag := false }, 0) := by
  obtain ⟨hneA, hdigA⟩ := canonical_facts hA
  obtain ⟨hneB, hdigB⟩ := canonical_facts hB
  obtain ⟨hneC, hdigC⟩ := canonical_facts hC
  have hdotA := not_mem_of_all_digit (x := '.') (by decide) hdigA
  have hdotB := not_mem_of_all_digit (x := '.') (by decide) hdigB
  have hdotC := not_mem_of_all_digit (x := '.') (by decide) hdigC
  have hd := triple_data A B C
  have hplusL : '+' ∉ A.data ++ '.' :: (B.data ++ '.' :: C.data) :=
    not_mem_append_cons (not_mem_of_all_digit (by decide) hdigA) (by decide)
      (not_mem_append_cons (not_mem_of_all_digit (by decide) hdigB) (by decide)
        (not_mem_of_all_digit (by decide) hdigC))
  have hminusL : '-' ∉ A.data ++ '.' :: (B.data ++ '.' :: C.data) :=
    not_mem_append_cons (not_mem_of_all_digit (by decide) hdigA) (by decide)
      (not_mem_append_cons (not_mem_of_all_digit (by decide) hdigB) (by decide)
        (not_mem_of_all_digit (by decide) hdigC))
  have hbarL : '|' ∉ A.data ++ '.' :: (B.data ++ '.' :: C.data) :=
    not_mem_append_cons (not_mem_of_all_digit (by decide) hdigA) (by decide)
      (not_mem_append_cons (not_mem_of_all_digit (by decide) hdigB) (by decide)
        (not_mem_of_all_digit (by decide) hdigC))
  have hspL : ' ' ∉ A.data ++ '.' :: (B.data ++ '.' :: C.data) :=
    not_mem_append_cons (not_mem_of_all_digit (by decide) hdigA) (by decide)
      (not_mem_append_cons (not_mem_of_all_digit (by decide) hdigB) (by decide)
        (not_mem_of_all_digit (by decide) hdigC))
  have hvL : ['v'].isPrefixOf (A.data ++ '.' :: (B.data ++ '.' :: C.data)) = false :=
    v_not_prefixOf_digit_head hA _
  have hsplitL : splitChar '.' (A.data ++ '.' :: (B.data ++ '.' :: C.data)) =
      [A.data, B.data, C.data] := by
    rw [splitChar_append _ hdotA, splitChar_append _ hdotB,
      splitChar_of_not_mem _ hdotC]
  have hval : validRange (A ++ "." ++ B ++ "." ++ C) = true := by
    apply validRange_of_xrp (by rw [hd]; exact hbarL) (by rw [hd]; exact hspL)
    rw [hd, xrpOk_parts hvL hplusL hminusL, hsplitL]
    simp [xrangeIdent_of_canonical hA, xrangeIdent_of_canonical hB,
      xrangeIdent_of_canonical hC]
  have hparse : parseSemVer (A ++ "." ++ B ++ "." ++ C) =
      some ⟨natOf A.data, natOf B.data, natOf C.data, []⟩ := by
    unfold parseSemVer
    rw [hd, parseSemVerL_of_parts hvL hplusL hminusL, hsplitL]
    unfold canonicalNumericTag at hA hB hC
    simp [hA, hB, hC]
  unfold resolveVersionInput
  rw [hval, hparse]
  simp

/-! ## The claims -/

/-- A process environment with `DOTNET_INSTALL_DIR` pre-set to `/custom`. -/
def claim1Env : Env := ⟨some "/custom", none, none, none, none⟩

/-- C1 counterexample: with `DOTNET_INSTALL_DIR` pre-set to `/custom`, the
`InstallDir` constructor (which runs whenever the installer selects its
directory) overwrites the variable with the value computed from the major
version, and the subsequent read returns the computed value, not the
pre-existing one — refuting the claim that the pre-set value is returned
unchanged and that the variable is written only when previously unset. -/
theorem claim1_counterexample :
    installDirPath .linux claim1Env = "/custom" ∧
    (installDirConstruct .linux claim1Env "6.0").dotnetInstallDir =
      some "/usr/share/dotnet/6" ∧
    installDirPath .linux (installDirConstruct .linux claim1Env "6.0") ≠
      "/custom" := by
  refine ⟨rfl, by decide, by decide⟩

/-- C1 (amended): the `InstallDir` constructor unconditionally writes
`DOTNET_INSTALL_DIR` to the platform base joined with the major version,
overwriting any pre-existing value; the `path` getter returns whatever
nonempty value the variable holds at read time (so a pre-set value is
returned unchanged only when no construction has intervened). -/
theorem claim1_thm (os : OSFamily) (env : Env) (version : String) :
    (installDirConstruct os env version).dotnetInstallDir =
      some (installDirBase os env ++ pathSep os ++ (splitDot version).headD "") ∧
    (∀ p : String, p ≠ "" →
      installDirPath os { env with dotnetInstallDir := some p } = p) := by
  constructor
  · rfl
  · intro p hp
    unfold installDirPath
    simp [hp]

/-- C1 witness: the getter clause of `claim1_thm` at a concrete
pre-set value. -/
theorem claim1_witness :
    ("/custom" : String) ≠ "" ∧
    installDirPath .linux { claim1Env with dotnetInstallDir := some "/custom" } =
      "/custom" :=
  ⟨by decide, (claim1_thm .linux claim1Env "6.0").2 "/custom" (by decide)⟩

/-- C2 counterexample: with installed SDK directory names `["1.0.0"]` and
directive value `"7.0"`, nothing satisfies the range, and the post-install
determination returns null (`none`) — it does not fail: the source applies
a TypeScript non-null assertion to `semver.maxSatisfying(...)` and returns
the result, so no `VersionNotFound` (or any other) error is raised on this
path, refuting the claim that it fails with `VersionNotFound`. -/
theorem claim2_counterexample :
    outputDotnetVersion ["1.0.0"] "7.0" = none := by decide

/-- C2 (amended): the post-install determination returns no version
(null) exactly when no listed directory name satisfies the directive value
as a range; no error is raised in that case. -/
theorem claim2_thm (names : List String) (value : String) :
    outputDotnetVersion names value = none ↔
      ∀ n ∈ names, nameSatisfies value n = false := by
  unfold outputDotnetVersion maxSatisfying
  cases hr : parseRangeValue value with
  | none =>
    simp only []
    constructor
    · intro _ n _
      unfold nameSatisfies
      rw [hr]
      cases parseSemVer n <;> rfl
    · intro _
      trivial
  | some r =>
    simp only []
    constructor
    · intro h n hn
      unfold nameSatisfies
      rw [hr]
      cases hp : parseSemVer n with
      | none => rfl
      | some v =>
        by_contra hc
        have hs : satisfiesSpec v r = true := by
          cases hx : satisfiesSpec v r
          · exact absurd hx hc
          · rfl
        have hsome := pickMax_isSome_of_sat r names none n v hn hp hs
        cases hpm : pickMax r names none with
        | none =>
          rw [hpm] at hsome
          exact Bool.noConfusion hsome
        | some p =>
          rw [hpm] at h
          simp at h
    · intro h
      have hnone : pickMax r names none = none := by
        apply pickMax_none_of_none_sat
        intro n hn vn hp
        have hv := h n hn
        unfold nameSatisfies at hv
        rw [hr, hp] at hv
        exact hv
      rw [hnone]
      rfl

/-- C3: the post-install scan returns a maximum: whenever some listed name
parses as a version and satisfies the directive value as a range
(prerelease versions included), the scan returns a listed, parsing,
satisfying name that no satisfying name exceeds in the semver order. -/
theorem claim3_thm (names : List String) (value : String) (n : String)
    (vn : SemVer) (hmem : n ∈ names) (hp : parseSemVer n = some vn)
    (hs : nameSatisfies value n = true) :
    ∃ (m : String) (vm : SemVer),
      outputDotnetVersion names value = some m ∧ m ∈ names ∧
      parseSemVer m = some vm ∧ nameSatisfies value m = true ∧
      semverLtB vm vn = false := by
  unfold nameSatisfies at hs
  cases hr : parseRangeValue value with
  | none =>
    rw [hp, hr] at hs
    simp at hs
  | some r =>
    rw [hp, hr] at hs
    have hsome := pickMax_isSome_of_sat r names none n vn hmem hp hs
    cases hpm : pickMax r names none with
    | none =>
      rw [hpm] at hsome
      exact Bool.noConfusion hsome
    | some p =>
      obtain ⟨m, vm⟩ := p
      rcases pickMax_mem r names none m vm hpm with hl | ⟨h1, h2, h3⟩
      · exact Option.noConfusion hl
      · refine ⟨m, vm, ?_, h1, h2, ?_, ?_⟩
        · unfold outputDotnetVersion maxSatisfying
          rw [hr]
          simp only []
          rw [hpm]
          rfl
        · unfold nameSatisfies
          rw [h2, hr]
          exact h3
        · exact pickMax_ge r names none m vm hpm n vn hmem hp hs

/-- The installed-directory listing of the C3 example. -/
def claim3Names : List String := ["7.0.100", "7.0.203", "7.0.1-preview"]

/-- C3 witness: on names `["7.0.100","7.0.203","7.0.1-preview"]` and
directive value `"7.0"` the scan selects `"7.0.203"`, and the prerelease
name `"7.0.1-preview"` participates in the comparison (it satisfies the
range and is dominated by the result). -/
theorem claim3_witness :
    outputDotnetVersion claim3Names "7.0" = some "7.0.203" ∧
    (∃ (m : String) (vm : SemVer),
      outputDotnetVersion claim3Names "7.0" = some m ∧ m ∈ claim3Names ∧
      parseSemVer m = some vm ∧ nameSatisfies "7.0" m = true ∧
      semverLtB vm ⟨7, 0, 1, [.str ['p','r','e','v','i','e','w']]⟩ = false) :=
  ⟨by decide,
    claim3_thm claim3Names "7.0" "7.0.1-preview"
      ⟨7, 0, 1, [.str ['p','r','e','v','i','e','w']]⟩
      (by decide) (by decide) (by decide)⟩

/-- C4: on `A.B` and `A.B.x` with numeric `A`, `B` (canonical numerals, as
the range grammar requires), the resolver returns a channel directive with
value `A.B`, performs no fetch, and sets the quality flag exactly when the
numeric value of `A` is at least 6. -/
theorem claim4_thm (index : List ReleaseEntry) (A B : String)
    (hA : canonicalNumericTag A = true) (hB : canonicalNumericTag B = true) :
    resolveVersionInput index (A ++ "." ++ B) =
      (.ok { type := "channel", value := A ++ "." ++ B,
             qualityFlag := decide (6 ≤ natOfStr A) }, 0) ∧
    resolveVersionInput index (A ++ "." ++ B ++ ".x") =
      (.ok { type := "channel", value := A ++ "." ++ B,
             qualityFlag := decide (6 ≤ natOfStr A) }, 0) :=
  ⟨resolve_minor_channel index hA hB, resolve_patch_wildcard index hA hB⟩

/-- C4 witness: `7.0` resolves locally to the channel `7.0` with the
quality flag on (7 ≥ 6), with zero fetches. -/
theorem claim4_witness :
    canonicalNumericTag "7" = true ∧ canonicalNumericTag "0" = true ∧
    resolveVersionInput [] ("7" ++ "." ++ "0") =
      (.ok { type := "channel", value := "7" ++ "." ++ "0",
             qualityFlag := decide (6 ≤ natOfStr "7") }, 0) :=
  ⟨by decide, by decide, (claim4_thm [] "7" "0" (by decide) (by decide)).1⟩

/-- C5: on a bare major `A` or `A.x` with numeric `A`, the resolver performs
exactly one fetch of the release index and returns the `channel-version`
of the first entry whose major component equals `A`; when no entry
matches it fails with the channel-not-found error carrying the requested
major (joined as `A.` resp. `A.x`) and the index URL — and only then. -/
theorem claim5_thm (index : List ReleaseEntry) (A : String)
    (hA : canonicalNumericTag A = true) :
    resolveVersionInput index A =
      (match index.find? (fun e => (splitDot e.channelVersion).headD "" == A) with
       | some e => (.ok { type := "channel", value := e.channelVersion,
                          qualityFlag := decide (6 ≤ natOfStr A) }, 1)
       | none => (.error (.channelNotFound (A ++ ".") dotNetCoreIndexUrl), 1)) ∧
    resolveVersionInput index (A ++ ".x") =
      (match index.find? (fun e => (splitDot e.channelVersion).headD "" == A) with
       | some e => (.ok { type := "channel", value := e.channelVersion,
                          qualityFlag := decide (6 ≤ natOfStr A) }, 1)
       | none => (.error (.channelNotFound (A ++ ".x") dotNetCoreIndexUrl), 1)) :=
  ⟨resolve_bare_major index hA, resolve_major_wildcard index hA⟩

/-- C5 witness: against an index containing only channel `8.0`, input `9`
fetches once and fails with the channel-not-found error naming `9.` and
the index URL, while input `8` fetches once and returns `8.0`. -/
theorem claim5_witness :
    canonicalNumericTag "9" = true ∧
    resolveVersionInput [⟨"8.0"⟩] "9" =
      (.error (.channelNotFound ("9" ++ ".") dotNetCoreIndexUrl), 1) ∧
    resolveVersionInput [⟨"8.0"⟩] "8" =
      (.ok { type := "channel", value := "8.0",
             qualityFlag := decide (6 ≤ natOfStr "8") }, 1) := by
  refine ⟨by decide, ?_, ?_⟩
  · exact ((claim5_thm [⟨"8.0"⟩] "9" (by decide)).1).trans (by rfl)
  · exact ((claim5_thm [⟨"8.0"⟩] "8" (by decide)).1).trans (by rfl)

/-- C6: when a (nonempty) quality was requested, the argument builder
appends the quality flag and the quality value exactly when the
directive's quality flag is set; otherwise the arguments are unchanged
and the quality warning is emitted (and building completes normally). -/
theorem claim6_thm (os : OSFamily) (escapedScript : String) (env : Env)
    (versionInput quality : String) (dv : DotnetVersion) (hq : quality ≠ "") :
    buildScriptArguments os escapedScript env versionInput quality dv =
      (scriptArgsBase os escapedScript dv ++
        (if dv.qualityFlag then [qualityOption os, quality] else []) ++
        (if os = .windows then proxyArgs env else []),
       if dv.qualityFlag then [] else [qualityWarning versionInput]) := by
  obtain ⟨d1, d2, d3, hpx, npx⟩ := env
  cases os <;>
    cases hf : dv.qualityFlag <;>
    cases hpx <;>
    cases npx <;>
    by_cases ht : dv.type = "" <;>
    simp [buildScriptArguments, setQuality, scriptArgsBase, proxyArgs,
      versionChannelPart, qualityOption, hq, hf, ht]

/-- C6 witness: a directive that does not support quality drops the
requested quality `preview` and emits the warning; building continues and
returns the unchanged argument list. -/
theorem claim6_witness :
    ("preview" : String) ≠ "" ∧
    buildScriptArguments .linux "script" ⟨none, none, none, none, none⟩
        "5.0" "preview" ⟨"--channel", "5.0", false⟩ =
      (scriptArgsBase .linux "script" ⟨"--channel", "5.0", false⟩ ++ [] ++ [],
       [qualityWarning "5.0"]) :=
  ⟨by decide,
    claim6_thm .linux "script" ⟨none, none, none, none, none⟩ "5.0" "preview"
      ⟨"--channel", "5.0", false⟩ (by decide)⟩

/-- C7: an input that passes range validation, is not an exact version, and
whose major (first dot-component) is not purely numeric yields the
degenerate directive (empty type and value, quality flag off) with no
fetch; the flag-rendering step leaves it unchanged, and the installer
argument list then carries no version or channel flag at all — only the
fixed arguments (and, on Windows, the proxy passthrough). -/
theorem claim7_thm (index : List ReleaseEntry) (s : String)
    (hval : validRange s = true) (hparse : parseSemVer s = none)
    (hmaj : isNumericTag ((splitDot s).headD "") = false) :
    resolveVersionInput index s =
      (.ok { type := "", value := "", qualityFlag := false }, 0) ∧
    (∀ os, createDotNetVersion os index s =
      (.ok { type := "", value := "", qualityFlag := false }, 0)) ∧
    versionChannelPart { type := "", value := "", qualityFlag := false } = [] ∧
    (∀ os escapedScript env quality,
      (buildScriptArguments os escapedScript env s quality
        { type := "", value := "", qualityFlag := false }).1 =
      (if os = .windows then
        windowsDefaultOptions ++
          ["&", "\x27" ++ escapedScript ++ "\x27", "-SkipNonVersionedFiles"]
       else ["--skip-non-versioned-files"]) ++
        (if os = .windows then proxyArgs env else [])) := by
  have hres : resolveVersionInput index s =
      (.ok { type := "", value := "", qualityFlag := false }, 0) := by
    unfold resolveVersionInput
    rw [hval, hparse]
    have hmaj2 : isNumericTag ((splitDot s).head?.getD "") = false := by
      simpa using hmaj
    simp [hmaj2]
  refine ⟨hres, ?_, rfl, ?_⟩
  · intro os
    unfold createDotNetVersion
    rw [hres]
    simp
  · intro os escapedScript env quality
    obtain ⟨d1, d2, d3, hpx, npx⟩ := env
    cases os <;>
      cases hpx <;>
      cases npx <;>
      by_cases hq : quality = "" <;>
      simp [buildScriptArguments, setQuality, proxyArgs, hq]

/-- C7 witness: the wildcard input `x` passes range validation, is not an
exact version, has the non-numeric major `x`, and resolves to the
degenerate directive with no fetch. -/
theorem claim7_witness :
    validRange "x" = true ∧ parseSemVer "x" = none ∧
    isNumericTag ((splitDot "x").headD "") = false ∧
    resolveVersionInput [] "x" =
      (.ok { type := "", value := "", qualityFlag := false }, 0) :=
  ⟨by decide, by decide, by decide,
    (claim7_thm [] "x" (by decide) (by decide) (by decide)).1⟩

/-- C8: an exact canonical triple `A.B.C` resolves to an exact version
directive whose value is the input itself, with the quality flag off
regardless of the major, and no fetch. -/
theorem claim8_thm (index : List ReleaseEntry) (A B C : String)
    (hA : canonicalNumericTag A = true) (hB : canonicalNumericTag B = true)
    (hC : canonicalNumericTag C = true) :
    resolveVersionInput index (A ++ "." ++ B ++ "." ++ C) =
      (.ok { type := "version", value := A ++ "." ++ B ++ "." ++ C,
             qualityFlag := false }, 0) :=
  resolve_exact_triple index hA hB hC

/-- C8 witness: `8.0.100` resolves to the exact pin `8.0.100` with the
quality flag off and no fetch. -/
theorem claim8_witness :
    canonicalNumericTag "8" = true ∧ canonicalNumericTag "0" = true ∧
    canonicalNumericTag "100" = true ∧
    resolveVersionInput [] ("8" ++ "." ++ "0" ++ "." ++ "100") =
      (.ok { type := "version", value := "8" ++ "." ++ "0" ++ "." ++ "100",
             qualityFlag := false }, 0) :=
  ⟨by decide, by decide, by decide,
    claim8_thm [] "8" "0" "100" (by decide) (by decide) (by decide)⟩

/-- C9: an input rejected by range validation makes the resolver fail with
the invalid-format error carrying the input, producing no directive and
performing no fetch. -/
theorem claim9_thm (index : List ReleaseEntry) (s : String)
    (h : validRange s = false) :
    resolveVersionInput index s = (.error (.invalidFormat s), 0) := by
  unfold resolveVersionInput
  rw [h]
  simp

/-- C9 witness: `not-a-version` is rejected by range validation and fails
with the invalid-format error. -/
theorem claim9_witness :
    validRange "not-a-version" = false ∧
    resolveVersionInput [] "not-a-version" =
      (.error (.invalidFormat "not-a-version"), 0) :=
  ⟨by decide, claim9_thm [] "not-a-version" (by decide)⟩

/-- C10: when the supplied quality input is empty (absent), the argument
builder appends no quality flag and emits no warning, for every directive
and OS family — even when the directive's quality flag is set. -/
theorem claim10_thm (os : OSFamily) (escapedScript : String) (env : Env)
    (versionInput : String) (dv : DotnetVersion) :
    buildScriptArguments os escapedScript env versionInput "" dv =
      (scriptArgsBase os escapedScript dv ++
        (if os = .windows then proxyArgs env else []), []) := by
  obtain ⟨d1, d2, d3, hpx, npx⟩ := env
  cases os <;>
    cases hpx <;>
    cases npx <;>
    by_cases ht : dv.type = "" <;>
    simp [buildScriptArguments, setQuality, scriptArgsBase, proxyArgs,
      versionChannelPart, ht]

end SetupDotnet
